import Mathlib

/-!
Shallow embedding of the PedaRAGy vector-store core
(app/preprocessing/chunker.py, app/vector_store/semantic_cache.py,
app/vector_store/search.py, app/vector_store/pinecone_client.py).

Python strings are modelled as lists of characters, similarity scores as
rationals.  Calls to external collaborators (the embedding model, the hosted
Pinecone index, hashlib.md5, datetime.now) are modelled as explicit
parameters: the outcome of each external call is passed in, and the embedded
function mirrors exactly what the Python source does with that outcome.
-/

namespace PedaRAGy

/-! ### Chunker (app/preprocessing/chunker.py)

Python str.split / str.strip semantics on ASCII text, modelled on List Char. -/

/-- Characters removed by Python str.strip() with no argument (ASCII range). -/
def pyIsSpace (c : Char) : Bool :=
  c = ' ' || c = '\t' || c = '\n' || c = '\r' || c = '\x0b' || c = '\x0c'

/-- Python str.strip(): drop whitespace from both ends. -/
def pyStrip (xs : List Char) : List Char :=
  ((xs.dropWhile pyIsSpace).reverse.dropWhile pyIsSpace).reverse

/-- Index of the first occurrence of sep in xs, if any. -/
def findSep (sep : List Char) : List Char → Option Nat
  | [] => if sep.isEmpty then some 0 else none
  | c :: rest =>
    if sep.isPrefixOf (c :: rest) then some 0
    else (findSep sep rest).map (fun n => n + 1)

/-- Fuel-indexed splitting loop; fuel bounds the number of separators consumed. -/
def pySplitF (sep : List Char) : Nat → List Char → List (List Char)
  | 0, xs => [xs]
  | n + 1, xs =>
    if sep.isEmpty then [xs]
    else
      match findSep sep xs with
      | none => [xs]
      | some i => xs.take i :: pySplitF sep n (xs.drop (i + sep.length))

/-- Python text.split(sep) for a non-empty separator: split at every
non-overlapping occurrence of sep, keeping empty segments. -/
def pySplit (sep xs : List Char) : List (List Char) :=
  pySplitF sep xs.length xs

/-- Interleave the separator back between segments (used to state that
pySplit is a genuine splitting of its input). -/
def joinSep (sep : List Char) : List (List Char) → List Char
  | [] => []
  | [s] => s
  | s :: rest => s ++ sep ++ joinSep sep rest

/-- The accumulation loop of Chunker.chunk_by_chapter: for each segment, if
its strip() is truthy (non-empty), append delimiter + segment.strip(). -/
def chunkAppendLoop (delimiter : List Char) : List (List Char) → List (List Char)
  | [] => []
  | seg :: rest =>
    if (pyStrip seg).isEmpty then chunkAppendLoop delimiter rest
    else (delimiter ++ pyStrip seg) :: chunkAppendLoop delimiter rest

/-- Chunker.chunk_by_chapter from app/preprocessing/chunker.py:
chapters = text.split(delimiter); for each chapter with truthy strip(),
append delimiter + chapter.strip(). -/
def chunk_by_chapter (text delimiter : List Char) : List (List Char) :=
  chunkAppendLoop delimiter (pySplit delimiter text)

/-! Supporting lemmas about the split model. -/

theorem findSep_some_split (sep : List Char) :
    ∀ (xs : List Char) (i : Nat), findSep sep xs = some i →
      i + sep.length ≤ xs.length ∧ xs.take i ++ (sep ++ xs.drop (i + sep.length)) = xs := by
  intro xs
  induction xs with
  | nil =>
    intro i h
    simp only [findSep] at h
    by_cases hs : sep.isEmpty
    · simp only [hs, if_pos] at h
      cases h
      rcases List.isEmpty_iff.mp hs with rfl
      simp
    · simp [hs] at h
  | cons c rest ih =>
    intro i h
    simp only [findSep] at h
    by_cases hp : sep.isPrefixOf (c :: rest)
    · simp only [hp, if_pos] at h
      cases h
      have hpre : sep <+: (c :: rest) := List.isPrefixOf_iff_prefix.mp hp
      rcases hpre with ⟨t, ht⟩
      constructor
      · have := congrArg List.length ht
        simp only [List.length_append] at this
        omega
      · simp only [Nat.zero_add, List.take_zero, List.nil_append]
        have hdrop : (c :: rest).drop sep.length = t := by
          rw [← ht, List.drop_left]
        rw [hdrop, ht]
    · simp only [hp, if_neg, Bool.false_eq_true, not_false_iff,
        Option.map_eq_some'] at h
      rcases h with ⟨j, hj, rfl⟩
      rcases ih j hj with ⟨h1, h2⟩
      constructor
      · simp only [List.length_cons]; omega
      · have : (c :: rest).take (j + 1) = c :: rest.take j := by simp
        rw [this]
        have hd : (c :: rest).drop (j + 1 + sep.length) = rest.drop (j + sep.length) := by
          have : j + 1 + sep.length = (j + sep.length) + 1 := by omega
          rw [this]
          simp [List.drop_succ_cons]
        rw [hd]
        simp only [List.cons_append]
        rw [h2]

theorem pySplitF_ne_nil (sep : List Char) (n : Nat) (xs : List Char) :
    pySplitF sep n xs ≠ [] := by
  cases n with
  | zero => simp [pySplitF]
  | succ n =>
    simp only [pySplitF]
    by_cases hs : sep.isEmpty
    · simp [hs]
    · simp only [hs, if_neg, Bool.false_eq_true, not_false_iff]
      cases h : findSep sep xs with
      | none => simp
      | some i => simp

theorem joinSep_cons (sep s : List Char) (rest : List (List Char)) (h : rest ≠ []) :
    joinSep sep (s :: rest) = s ++ sep ++ joinSep sep rest := by
  cases rest with
  | nil => exact absurd rfl h
  | cons t ts => rfl

theorem pySplitF_reconstruct (sep : List Char) (hsep : ¬ sep.isEmpty) :
    ∀ (n : Nat) (xs : List Char), xs.length ≤ n →
      joinSep sep (pySplitF sep n xs) = xs := by
  intro n
  induction n with
  | zero =>
    intro xs hx
    have : xs = [] := List.eq_nil_of_length_eq_zero (Nat.le_zero.mp hx)
    subst this
    simp [pySplitF, joinSep]
  | succ n ih =>
    intro xs hx
    simp only [pySplitF]
    rw [if_neg hsep]
    cases h : findSep sep xs with
    | none => simp [joinSep]
    | some i =>
      rcases findSep_some_split sep xs i h with ⟨h1, h2⟩
      have hslen : 1 ≤ sep.length := by
        cases sep with
        | nil => simp [List.isEmpty] at hsep
        | cons a l => simp
      have hdlen : (xs.drop (i + sep.length)).length ≤ n := by
        simp only [List.length_drop]
        omega
      rw [joinSep_cons sep _ _ (pySplitF_ne_nil sep n _)]
      rw [ih _ hdlen]
      calc xs.take i ++ sep ++ xs.drop (i + sep.length)
          = xs.take i ++ (sep ++ xs.drop (i + sep.length)) := by
            rw [List.append_assoc]
        _ = xs := h2

theorem pySplit_reconstruct (sep : List Char) (hsep : sep ≠ []) (xs : List Char) :
    joinSep sep (pySplit sep xs) = xs := by
  have : ¬ sep.isEmpty := by
    cases sep with
    | nil => exact absurd rfl hsep
    | cons a l => simp
  exact pySplitF_reconstruct sep this xs.length xs (Nat.le_refl _)

theorem chunkAppendLoop_eq (d : List Char) (l : List (List Char)) :
    chunkAppendLoop d l
      = (l.filter (fun s => !(pyStrip s).isEmpty)).map (fun s => d ++ pyStrip s) := by
  induction l with
  | nil => rfl
  | cons s rest ih =>
    simp only [chunkAppendLoop, List.filter_cons]
    cases hs : (pyStrip s).isEmpty with
    | true => simp [hs, ih]
    | false => simp [hs, ih]

theorem findSep_none_iff (sep : List Char) (hsep : sep ≠ []) :
    ∀ xs : List Char, findSep sep xs = none ↔ ¬ sep <:+: xs := by
  intro xs
  induction xs with
  | nil =>
    have h1 : ¬ sep.isEmpty := by
      cases sep with
      | nil => exact absurd rfl hsep
      | cons a l => simp
    simp only [findSep, h1, if_neg, Bool.false_eq_true, not_false_iff]
    constructor
    · intro _ hinf
      have := hinf.sublist.length_le
      simp only [List.length_nil, Nat.le_zero] at this
      exact hsep (List.eq_nil_of_length_eq_zero this)
    · intro _; trivial
  | cons c rest ih =>
    simp only [findSep]
    constructor
    · intro h hinf
      by_cases hp : sep.isPrefixOf (c :: rest)
      · simp [hp] at h
      · simp only [hp, if_neg, Bool.false_eq_true, not_false_iff,
          Option.map_eq_none'] at h
        rcases (List.infix_cons_iff).mp hinf with hpre | hinf2
        · exact hp ( List.isPrefixOf_iff_prefix.mpr hpre)
        · exact (ih.mp h) hinf2
    · intro h
      by_cases hp : sep.isPrefixOf (c :: rest)
      · exact absurd (( List.isPrefixOf_iff_prefix.mp hp).isInfix) h
      · simp only [hp, if_neg, Bool.false_eq_true, not_false_iff,
          Option.map_eq_none']
        exact ih.mpr (fun hinf2 => h (List.infix_cons_iff.mpr (Or.inr hinf2)))

theorem pySplit_of_no_sep (sep : List Char) (hsep : sep ≠ []) (xs : List Char)
    (h : findSep sep xs = none) : pySplit sep xs = [xs] := by
  have h1 : ¬ sep.isEmpty := by
    cases sep with
    | nil => exact absurd rfl hsep
    | cons a l => simp
  unfold pySplit
  cases hn : xs.length with
  | zero => simp [pySplitF]
  | succ n =>
    simp only [pySplitF, h1, if_neg, Bool.false_eq_true, not_false_iff, h]

/-! ### Semantic cache (app/vector_store/semantic_cache.py)

The embedding model and hashlib.md5 are external collaborators: they appear
as explicit function parameters (E for embed_text, H for the md5 hex digest).
The Pinecone cache index state is a list of (id, vector-record) pairs. -/

/-- Metadata dict built by SemanticCache.store_response. -/
structure CacheMetadata where
  original_query : String
  mode : String
  context : String
  response : String
  cached_at : String
  query_hash : String
deriving DecidableEq

/-- One match as returned by PineconeClient.search over the cache namespace. -/
structure CacheMatch where
  id : String
  score : ℚ
  metadata : CacheMetadata
deriving DecidableEq

/-- The dict returned by SemanticCache.get_cached_response on a hit. -/
structure CacheHit where
  context : String
  response : String
  similarity_score : ℚ
  cached_at : String
  original_query : String
deriving DecidableEq

/-- One stored cache record: embedding values plus metadata. -/
structure CacheVector where
  values : List ℚ
  metadata : CacheMetadata
deriving DecidableEq

/-- The pre-hash content of SemanticCache._generate_query_hash:
the f-string f"(prompt)_(mode)", i.e. prompt + "_" + mode, with no
normalization of the prompt. -/
def hashContent (prompt mode : String) : String :=
  prompt ++ "_" ++ mode

/-- SemanticCache._generate_query_hash: md5 hex digest (H) of the content. -/
def generate_query_hash (H : String → String) (prompt mode : String) : String :=
  H (hashContent prompt mode)

/-- SemanticCache._generate_cache_id: "cache_" + query hash. -/
def generate_cache_id (H : String → String) (prompt mode : String) : String :=
  "cache_" ++ generate_query_hash H prompt mode

/-- Modelled from the spec: the external Pinecone index's upsert semantics for
a single record — insert-or-update by id ("overwritten (last-write-wins) if
the identical (query, mode) pair recurs"; "the backend index serializes
conflicting writes to the same id").  Not in src/: the write itself happens
inside the hosted Pinecone service. -/
def upsertById {α : Type} (st : List (String × α)) (id : String) (v : α) :
    List (String × α) :=
  if st.any (fun p => p.1 = id) then
    st.map (fun p => if p.1 = id then (id, v) else p)
  else st ++ [(id, v)]

/-- The metadata dict literal built inside SemanticCache.store_response. -/
def cacheEntryMetadata (H : String → String) (prompt mode context response cached_at : String) :
    CacheMetadata :=
  { original_query := prompt
    mode := mode
    context := context
    response := response
    cached_at := cached_at
    query_hash := generate_query_hash H prompt mode }

/-- SemanticCache.store_response: embed the prompt (E), compute the
deterministic cache id, build the metadata, and upsert one vector under that
id.  cached_at stands for the external datetime.now().isoformat(). -/
def store_response (H : String → String) (E : String → List ℚ)
    (prompt mode context response cached_at : String)
    (st : List (String × CacheVector)) : List (String × CacheVector) :=
  upsertById st (generate_cache_id H prompt mode)
    { values := E prompt
      metadata := cacheEntryMetadata H prompt mode context response cached_at }

/-- SemanticCache.get_cached_response, given the list of matches the top-1
Pinecone search over the cache namespace returned: if there is a match whose
score is at or above the similarity threshold and whose stored metadata mode
equals the requested mode, return the hit dict; otherwise return None. -/
def get_cached_response (results : List CacheMatch) (mode : String)
    (threshold : ℚ) : Option CacheHit :=
  match results with
  | [] => none
  | m :: _ =>
    if threshold ≤ m.score then
      if m.metadata.mode = mode then
        some { context := m.metadata.context
               response := m.metadata.response
               similarity_score := m.score
               cached_at := m.metadata.cached_at
               original_query := m.metadata.original_query }
      else none
    else none

/-- The method names PineconeClient (app/vector_store/pinecone_client.py)
actually defines.  Note: no delete_index and no describe_index. -/
def pineconeClientMethods : List String :=
  ["__init__", "create_index", "connect_to_index", "upsert_vectors",
   "upsert_documents", "search", "delete_vectors", "get_index_stats",
   "list_namespaces"]

/-- Python attribute lookup on a PineconeClient instance: accessing a method
name not defined by the class raises AttributeError. -/
def pineconeHasMethod (name : String) : Bool :=
  pineconeClientMethods.contains name

/-- SemanticCache.clear_cache: inside try, it first calls
self.pinecone_client.delete_index(...).  If that attribute lookup fails,
the raised AttributeError is caught by the except branch, which returns
False and leaves the cache state untouched; only if the lookup succeeded
would the index be deleted and recreated (flushing the state). -/
def clear_cache (st : List (String × CacheVector)) :
    Bool × List (String × CacheVector) :=
  if pineconeHasMethod "delete_index" then (true, [])
  else (false, st)

/-! ### Retrieval search (app/vector_store/search.py and
PineconeClient.search in app/vector_store/pinecone_client.py)

The outcomes of the two external calls (embedding model encode, hosted index
query) are passed in as Except values; the embedded functions mirror what the
Python try/except blocks do with those outcomes. -/

/-- One raw match from the hosted index query: id, score, metadata dict
(string-keyed, modelled as an association list). -/
structure SearchMatch where
  id : String
  score : ℚ
  metadata : List (String × String)
deriving DecidableEq

/-- Python dict.get(key, default) on a string-keyed metadata dict. -/
def metaGet (md : List (String × String)) (key default : String) : String :=
  match md.find? (fun p => p.1 = key) with
  | some p => p.2
  | none => default

/-- Round-half-to-even on a rational (Python's round on an exact value). -/
def roundHalfEven (q : ℚ) : ℤ :=
  let f : ℤ := Int.floor q
  let frac : ℚ := q - f
  if frac < 1/2 then f
  else if 1/2 < frac then f + 1
  else if f % 2 = 0 then f else f + 1

/-- Python round(y, 2): round to two decimal places, ties to even. -/
def pyRoundTo2 (y : ℚ) : ℚ :=
  (roundHalfEven (y * 100) : ℚ) / 100

/-- The enhanced result dict built inside SemanticSearch.search for a match
that passed the min_score filter. -/
structure EnhancedResult where
  id : String
  score : ℚ
  text : String
  metadata : List (String × String)
  relevance_percentage : ℚ
deriving DecidableEq

/-- The dict literal SemanticSearch.search appends for one passing match. -/
def enhanceResult (m : SearchMatch) : EnhancedResult :=
  { id := m.id
    score := m.score
    text := metaGet m.metadata "text" ""
    metadata := m.metadata
    relevance_percentage := pyRoundTo2 (m.score * 100) }

/-- The raw match carried inside an enhanced result (id, score, metadata are
copied through unchanged). -/
def searchMatchOf (r : EnhancedResult) : SearchMatch :=
  { id := r.id, score := r.score, metadata := r.metadata }

/-- PineconeClient.search: if no index is connected, log and return []; then
call self.index.query inside try, and on any exception log and return [] —
the query outcome is the external call's result. -/
def pinecone_client_search (connected : Bool)
    (queryOutcome : Except String (List SearchMatch)) : List SearchMatch :=
  if !connected then []
  else
    match queryOutcome with
    | .ok ms => ms
    | .error _ => []

/-- SemanticSearch.search: inside try, embed the query (external outcome
embedOutcome; an exception there is caught by the outer except, which returns
[]), call PineconeClient.search (which itself never raises), then keep, in
order, each result with score >= min_score, enhanced. -/
def semantic_search (embedOutcome : Except String (List ℚ)) (connected : Bool)
    (queryOutcome : Except String (List SearchMatch)) (min_score : ℚ) :
    List EnhancedResult :=
  match embedOutcome with
  | .error _ => []
  | .ok _ =>
    let results := pinecone_client_search connected queryOutcome
    (results.filter (fun r => min_score ≤ r.score)).map enhanceResult

/-! ### Vector upsert (PineconeClient.upsert_vectors) -/

/-- One vector passed to upsert_vectors: id, values, metadata dict. -/
structure UpVector where
  id : String
  values : List ℚ
  metadata : List (String × String)
deriving DecidableEq

/-- The state of one hosted index: its dimension and its records by id. -/
structure IndexState where
  dimension : Nat
  records : List (String × UpVector)
deriving DecidableEq

/-- The loop at the top of upsert_vectors: stamp a timestamp into each
vector's metadata if not already present. -/
def stampTimestamp (now : String) (v : UpVector) : UpVector :=
  if (v.metadata.find? (fun p => p.1 = "timestamp")).isSome then v
  else { v with metadata := v.metadata ++ [("timestamp", now)] }

/-- Modelled from the spec: the hosted Pinecone index's own upsert
(self.index.upsert), which is not in src/ — "if any vector has
len(values) != D, the whole batch fails with DimensionMismatch naming the
offending id (no partial application)"; otherwise every record is written
by id, last write wins. -/
def indexUpsert (st : IndexState) (vectors : List UpVector) :
    Except String IndexState :=
  match vectors.find? (fun v => v.values.length ≠ st.dimension) with
  | some v => .error ("Vector dimension " ++ toString v.values.length ++
      " does not match the dimension of the index for id " ++ v.id)
  | none =>
    .ok { st with
          records := vectors.foldl (fun recs v => upsertById recs v.id v) st.records }

/-- PineconeClient.upsert_vectors: if no index connected, log and return
False; otherwise stamp timestamps, call self.index.upsert inside try, and on
any exception log and return False (the index state is then unchanged). -/
def upsert_vectors (connected : Bool) (now : String) (vectors : List UpVector)
    (st : IndexState) : Bool × IndexState :=
  if !connected then (false, st)
  else
    match indexUpsert st (vectors.map (stampTimestamp now)) with
    | .ok st2 => (true, st2)
    | .error _ => (false, st)

/-! ### Supporting lemmas about upsertById and the cache id content. -/

theorem upsertById_cons_of_ne {α : Type} (id : String) (v : α) (p : String × α)
    (st : List (String × α)) (hp : p.1 ≠ id) :
    upsertById (p :: st) id v = p :: upsertById st id v := by
  simp only [upsertById, List.any_cons, decide_eq_false hp, Bool.false_or]
  by_cases hany : (st.any fun q => decide (q.1 = id)) = true
  · rw [if_pos hany, if_pos hany]
    simp [hp]
  · rw [if_neg hany, if_neg hany]
    simp

theorem upsertById_filter {α : Type} (id : String) (v : α) :
    ∀ st : List (String × α), (st.map Prod.fst).Nodup →
      (upsertById st id v).filter (fun p => p.1 = id) = [(id, v)] := by
  intro st
  induction st with
  | nil =>
    intro _
    simp [upsertById]
  | cons p st' ih =>
    intro hnd
    have hndc : (p.1 :: st'.map Prod.fst).Nodup := by
      simpa only [List.map_cons] using hnd
    have hnd2 := List.nodup_cons.mp hndc
    by_cases hp : p.1 = id
    · subst hp
      have hany : (p :: st').any (fun q => q.1 = p.1) = true := by
        simp [List.any_cons]
      simp only [upsertById, hany, if_pos, List.map_cons, if_pos rfl]
      have hmap : st'.map (fun q => if q.1 = p.1 then (p.1, v) else q) = st' := by
        conv_rhs => rw [show st' = st'.map id by simp]
        apply List.map_congr_left
        intro q hq
        have hq1 : q.1 ≠ p.1 := by
          intro h
          exact hnd2.1 (h ▸ List.mem_map_of_mem Prod.fst hq)
        simp [hq1]
      rw [hmap, List.filter_cons]
      rw [if_pos (by simp)]
      have hrest : st'.filter (fun q => q.1 = p.1) = [] := by
        rw [List.filter_eq_nil_iff]
        intro q hq
        simp only [decide_eq_true_eq]
        intro h
        exact hnd2.1 (h ▸ List.mem_map_of_mem Prod.fst hq)
      rw [hrest]
    · rw [upsertById_cons_of_ne id v p st' hp, List.filter_cons,
        if_neg (by simp [hp])]
      exact ih hnd2.2

theorem upsertById_keys_nodup {α : Type} (id : String) (v : α)
    (st : List (String × α)) (hnd : (st.map Prod.fst).Nodup) :
    ((upsertById st id v).map Prod.fst).Nodup := by
  unfold upsertById
  by_cases hany : st.any (fun p => p.1 = id) = true
  · rw [if_pos hany, List.map_map]
    have : st.map (Prod.fst ∘ fun p => if p.1 = id then (id, v) else p)
        = st.map Prod.fst := by
      apply List.map_congr_left
      intro p _
      by_cases h : p.1 = id <;> simp [Function.comp, h]
    rw [this]
    exact hnd
  · rw [if_neg hany, List.map_append]
    have hid : id ∉ st.map Prod.fst := by
      intro hmem
      rcases List.mem_map.mp hmem with ⟨p, hp, hp1⟩
      exact hany (List.any_eq_true.mpr ⟨p, hp, by simp [hp1]⟩)
    simp only [List.map_cons, List.map_nil]
    rw [List.nodup_append]
    exact ⟨hnd, List.nodup_singleton id, by simpa [List.disjoint_singleton] using hid⟩

theorem hashContent_case_ne (m : String) :
    hashContent "Query" m ≠ hashContent "query" m := by
  intro h
  have hd := congrArg String.data h
  simp only [hashContent, String.data_append] at hd
  have hh := congrArg List.head? hd
  simp at hh

theorem hashContent_space_ne (m : String) :
    hashContent " query" m ≠ hashContent "query" m := by
  intro h
  have hd := congrArg (fun s => s.data.length) h
  simp only [hashContent, String.data_append, List.length_append] at hd
  simp at hd

theorem generate_cache_id_ne_of_content_ne (H : String → String)
    (hinj : Function.Injective H) (a b c d : String)
    (hne : hashContent a b ≠ hashContent c d) :
    generate_cache_id H a b ≠ generate_cache_id H c d := by
  intro h
  apply hne
  apply hinj
  have hd := congrArg String.data h
  simp only [generate_cache_id, generate_query_hash, String.data_append] at hd
  have := List.append_cancel_left hd
  cases hx : H (hashContent a b)
  cases hy : H (hashContent c d)
  rw [hx, hy] at this
  exact congrArg String.mk (by simpa using this)

/-! ### Claim theorems -/

/-- C7 (corrected): chunk_by_chapter splits the text on every literal
occurrence of the delimiter (interleaving the delimiter back between the
split segments reconstructs the text), drops segments that are empty or
whitespace-only after trimming, and emits each remaining trimmed segment
re-prefixed with the delimiter, in original order.  But on the claim's
example the trimmed segment is concatenated directly onto the delimiter, so
the space after "Chapter" is lost: the result is
["Chapter1 intro", "Chapter2 body"], not ["Chapter 1 intro", "Chapter 2 body"]. -/
theorem chunk_by_chapter_behavior (text d : List Char) (hd : d ≠ []) :
    chunk_by_chapter text d
      = ((pySplit d text).filter (fun s => !(pyStrip s).isEmpty)).map
          (fun s => d ++ pyStrip s)
    ∧ joinSep d (pySplit d text) = text
    ∧ chunk_by_chapter ("Chapter 1 intro Chapter 2 body").toList ("Chapter").toList
      = [("Chapter1 intro").toList, ("Chapter2 body").toList] :=
  ⟨chunkAppendLoop_eq d (pySplit d text), pySplit_reconstruct d hd text, by decide⟩

/-- Witness for C7's theorem at concrete inputs. -/
theorem chunk_by_chapter_behavior_witness :
    chunk_by_chapter ("a Chapter b").toList ("Chapter").toList
      = ((pySplit ("Chapter").toList ("a Chapter b").toList).filter
          (fun s => !(pyStrip s).isEmpty)).map (fun s => ("Chapter").toList ++ pyStrip s)
    ∧ joinSep ("Chapter").toList (pySplit ("Chapter").toList ("a Chapter b").toList)
      = ("a Chapter b").toList
    ∧ chunk_by_chapter ("Chapter 1 intro Chapter 2 body").toList ("Chapter").toList
      = [("Chapter1 intro").toList, ("Chapter2 body").toList] :=
  chunk_by_chapter_behavior ("a Chapter b").toList ("Chapter").toList (by decide)

/-- C7 counterexample: on the claim's own example the chunks are
["Chapter1 intro", "Chapter2 body"] — the code prepends the delimiter to the
stripped segment, so they are not the claimed
["Chapter 1 intro", "Chapter 2 body"]. -/
theorem chunk_by_chapter_example_cex :
    chunk_by_chapter ("Chapter 1 intro Chapter 2 body").toList ("Chapter").toList
      = [("Chapter1 intro").toList, ("Chapter2 body").toList]
    ∧ chunk_by_chapter ("Chapter 1 intro Chapter 2 body").toList ("Chapter").toList
      ≠ [("Chapter 1 intro").toList, ("Chapter 2 body").toList] :=
  ⟨by decide, by decide⟩

/-- C8 (corrected): if the delimiter never occurs in the text and the text is
not whitespace-only, chunk_by_chapter returns exactly one chunk — but its
text is the delimiter prepended to the trimmed input text, not the entire
input text. -/
theorem chunk_by_chapter_no_delimiter (text d : List Char) (hd : d ≠ [])
    (hocc : ¬ d <:+: text) (hws : pyStrip text ≠ []) :
    chunk_by_chapter text d = [d ++ pyStrip text] := by
  have hfind : findSep d text = none := (findSep_none_iff d hd text).mpr hocc
  unfold chunk_by_chapter
  rw [pySplit_of_no_sep d hd text hfind]
  simp only [chunkAppendLoop]
  rw [if_neg (by simpa [List.isEmpty_iff] using hws)]

/-- Witness for C8's amended theorem at concrete inputs. -/
theorem chunk_by_chapter_no_delimiter_witness :
    chunk_by_chapter ("hello").toList ("Chapter").toList
      = [("Chapter").toList ++ pyStrip ("hello").toList] :=
  chunk_by_chapter_no_delimiter ("hello").toList ("Chapter").toList
    (by decide) (by decide) (by decide)

/-- C8 counterexample: with text "hello" and delimiter "Chapter" (which does
not occur in the text), the single chunk is "Chapterhello", not the entire
input text "hello". -/
theorem chunk_by_chapter_no_delimiter_cex :
    chunk_by_chapter ("hello").toList ("Chapter").toList = [("Chapterhello").toList]
    ∧ chunk_by_chapter ("hello").toList ("Chapter").toList ≠ [("hello").toList] :=
  ⟨by decide, by decide⟩

/-- C1: mode isolation of the semantic cache.  If the top-1 search result
over the cache is the entry written by store_response for (q, m1) — with any
score s, including 1.0 at or above the threshold — then get_cached_response
with a different mode m2 returns None; and in general a hit is returned only
when the best candidate's stored metadata mode equals the requested mode and
its score is at or above the threshold. -/
theorem cache_mode_isolation (H : String → String)
    (q m1 m2 c r t : String) (s θ : ℚ) (rest : List CacheMatch)
    (results : List CacheMatch) (mode : String) (θ2 : ℚ)
    (hit : CacheHit) (b : CacheMatch)
    (hmode : m2 ≠ m1)
    (hhit : get_cached_response results mode θ2 = some hit)
    (hb : results.head? = some b) :
    get_cached_response
        ({ id := generate_cache_id H q m1, score := s,
           metadata := cacheEntryMetadata H q m1 c r t } :: rest) m2 θ = none
    ∧ b.metadata.mode = mode ∧ θ2 ≤ b.score := by
  have hm : m1 ≠ m2 := fun h => hmode h.symm
  constructor
  · simp [get_cached_response, cacheEntryMetadata, hm]
  · cases results with
    | nil => cases hhit
    | cons b0 rest0 =>
      have hb0 : b0 = b := by simpa using hb
      subst hb0
      simp only [get_cached_response] at hhit
      by_cases hsc : θ2 ≤ b0.score
      · rw [if_pos hsc] at hhit
        by_cases hmd : b0.metadata.mode = mode
        · exact ⟨hmd, hsc⟩
        · rw [if_neg hmd] at hhit
          cases hhit
      · rw [if_neg hsc] at hhit
        cases hhit

/-- Identity stand-in for the md5 hex digest, used at concrete witness inputs. -/
def idHash : String → String := fun x => x

/-- A concrete cache match whose stored mode is "explain", used as witness input. -/
def matchZ : CacheMatch :=
  { id := "cache_z", score := 1,
    metadata := cacheEntryMetadata idHash "z" "explain" "c" "r" "t0" }

/-- The hit get_cached_response returns for matchZ at threshold mkRat 95 100. -/
def hitZ : CacheHit :=
  { context := "c", response := "r", similarity_score := 1,
    cached_at := "t0", original_query := "z" }

/-- Witness for C1's theorem at concrete inputs. -/
theorem cache_mode_isolation_witness :
    get_cached_response
        ({ id := generate_cache_id idHash "explain photosynthesis" "explain",
           score := 1,
           metadata := cacheEntryMetadata idHash "explain photosynthesis"
             "explain" "ctx" "A" "t0" } :: []) "quiz" (mkRat 95 100) = none
    ∧ matchZ.metadata.mode = "explain" ∧ (mkRat 95 100) ≤ matchZ.score :=
  cache_mode_isolation idHash "explain photosynthesis" "explain" "quiz"
    "ctx" "A" "t0" 1 (mkRat 95 100) [] [matchZ] "explain" (mkRat 95 100)
    hitZ matchZ (by decide) (by decide) (by decide)

/-- C2: cache threshold monotonicity.  For a fixed query, mode and cache
contents (hence a fixed list of search results), if get_cached_response
misses at threshold t, it also misses at every threshold at or above t. -/
theorem cache_threshold_monotone (results : List CacheMatch) (mode : String)
    (t t2 : ℚ) (hmiss : get_cached_response results mode t = none)
    (hle : t ≤ t2) :
    get_cached_response results mode t2 = none := by
  cases results with
  | nil => rfl
  | cons m rest =>
    simp only [get_cached_response] at hmiss ⊢
    by_cases hsc : t2 ≤ m.score
    · rw [if_pos hsc]
      rw [if_pos (le_trans hle hsc)] at hmiss
      by_cases hmd : m.metadata.mode = mode
      · rw [if_pos hmd] at hmiss
        cases hmiss
      · rw [if_neg hmd]
    · rw [if_neg hsc]

/-- A concrete cache match with score 1/2, used as witness input. -/
def matchHalf : CacheMatch :=
  { id := "cache_a", score := mkRat 1 2,
    metadata := cacheEntryMetadata idHash "a" "explain" "c" "r" "t0" }

/-- Witness for C2's theorem at concrete inputs. -/
theorem cache_threshold_monotone_witness :
    get_cached_response [matchHalf] "explain" (mkRat 9 10) = none :=
  cache_threshold_monotone [matchHalf] "explain" (mkRat 3 4) (mkRat 9 10)
    (by decide) (by decide)

/-- C3: idempotent store (last-write-wins).  Storing (q, m) twice computes the
same deterministic cache id both times, so the second upsert overwrites the
first: on any cache state with pairwise-distinct ids, exactly one entry for
the (q, m) cache id remains, and its metadata response is the second one. -/
theorem store_response_idempotent (H : String → String) (E : String → List ℚ)
    (q m c r1 r2 t1 t2 : String) (st : List (String × CacheVector))
    (hkeys : (st.map Prod.fst).Nodup) :
    (store_response H E q m c r2 t2 (store_response H E q m c r1 t1 st)).filter
        (fun p => p.1 = generate_cache_id H q m)
      = [(generate_cache_id H q m,
          { values := E q, metadata := cacheEntryMetadata H q m c r2 t2 })]
    ∧ (cacheEntryMetadata H q m c r2 t2).response = r2 := by
  refine ⟨?_, rfl⟩
  unfold store_response
  exact upsertById_filter _ _ _
    (upsertById_keys_nodup _ _ st hkeys)

/-- A concrete embedder stand-in used at witness inputs. -/
def zeroEmbed : String → List ℚ := fun _ => [0]

/-- Witness for C3's theorem at concrete inputs. -/
theorem store_response_idempotent_witness :
    (store_response idHash zeroEmbed "q" "explain" "c" "r2" "t2"
        (store_response idHash zeroEmbed "q" "explain" "c" "r1" "t1" [])).filter
        (fun p => p.1 = generate_cache_id idHash "q" "explain")
      = [(generate_cache_id idHash "q" "explain",
          { values := zeroEmbed "q",
            metadata := cacheEntryMetadata idHash "q" "explain" "c" "r2" "t2" })]
    ∧ (cacheEntryMetadata idHash "q" "explain" "c" "r2" "t2").response = "r2" :=
  store_response_idempotent idHash zeroEmbed "q" "explain" "c" "r1" "r2" "t1" "t2"
    [] (by simp)

/-- C10: the cache id is built from the unnormalized concatenation
query + "_" + mode.  The mapping (query, mode) to pre-hash content is not
injective: ("a", "b_c") and ("a_b", "c") are distinct pairs with the same
content, hence the same cache id for every digest function, and storing one
overwrites the other's entry.  Conversely, for any collision-free digest,
queries differing only in case or in surrounding whitespace produce distinct
cache ids. -/
theorem cache_id_unnormalized (H : String → String) (E : String → List ℚ)
    (m c1 r1 t1 c2 r2 t2 : String) (hinj : Function.Injective H) :
    hashContent "a" "b_c" = hashContent "a_b" "c"
    ∧ (("a", "b_c") : String × String) ≠ ("a_b", "c")
    ∧ generate_cache_id H "a" "b_c" = generate_cache_id H "a_b" "c"
    ∧ store_response H E "a_b" "c" c2 r2 t2
        (store_response H E "a" "b_c" c1 r1 t1 [])
      = [(generate_cache_id H "a" "b_c",
          { values := E "a_b",
            metadata := cacheEntryMetadata H "a_b" "c" c2 r2 t2 })]
    ∧ generate_cache_id H "Query" m ≠ generate_cache_id H "query" m
    ∧ generate_cache_id H (" query") m ≠ generate_cache_id H "query" m := by
  have hc : hashContent "a" "b_c" = hashContent "a_b" "c" := by decide
  have hid : generate_cache_id H "a" "b_c" = generate_cache_id H "a_b" "c" := by
    unfold generate_cache_id generate_query_hash
    rw [hc]
  refine ⟨hc, by decide, hid, ?_, ?_, ?_⟩
  · unfold store_response
    simp only [upsertById, List.any_nil, List.nil_append, if_neg]
    rw [← hid]
    simp
  · exact generate_cache_id_ne_of_content_ne H hinj _ _ _ _ (hashContent_case_ne m)
  · exact generate_cache_id_ne_of_content_ne H hinj _ _ _ _ (hashContent_space_ne m)

/-- Witness for C10's theorem at concrete inputs. -/
theorem cache_id_unnormalized_witness :
    hashContent "a" "b_c" = hashContent "a_b" "c"
    ∧ (("a", "b_c") : String × String) ≠ ("a_b", "c")
    ∧ generate_cache_id idHash "a" "b_c" = generate_cache_id idHash "a_b" "c"
    ∧ store_response idHash zeroEmbed "a_b" "c" "c2" "r2" "t2"
        (store_response idHash zeroEmbed "a" "b_c" "c1" "r1" "t1" [])
      = [(generate_cache_id idHash "a" "b_c",
          { values := zeroEmbed "a_b",
            metadata := cacheEntryMetadata idHash "a_b" "c" "c2" "r2" "t2" })]
    ∧ generate_cache_id idHash "Query" "quiz" ≠ generate_cache_id idHash "query" "quiz"
    ∧ generate_cache_id idHash (" query") "quiz" ≠ generate_cache_id idHash "query" "quiz" :=
  cache_id_unnormalized idHash zeroEmbed "quiz" "c1" "r1" "t1" "c2" "r2" "t2"
    (fun _ _ h => h)

/-- C5 (code_bug): clear_cache can never succeed.  Its try block first calls
self.pinecone_client.delete_index, but PineconeClient defines no delete_index
method, so every call raises AttributeError, which the except branch turns
into a return value of False with the cache state untouched — the cache is
never flushed, contradicting the claim (and the method's own docstring). -/
theorem clear_cache_never_clears (st : List (String × CacheVector)) :
    clear_cache st = (false, st)
    ∧ pineconeHasMethod "delete_index" = false := by
  refine ⟨?_, by decide⟩
  unfold clear_cache
  rw [if_neg (by decide)]

/-- C4 counterexample: search converts both failure kinds into an empty
success.  With a failing embedding outcome (even over an index that holds a
matching document) the result is [], with a failing index query the result
is [], and the failed-embedding run is indistinguishable from a successful
search over an empty namespace. -/
theorem search_swallows_failures_cex :
    semantic_search (.error "embedding failure") true
        (.ok [{ id := "doc1", score := 1, metadata := [("text", "ctx")] }]) 0 = []
    ∧ semantic_search (.ok [1]) true (.error "index unavailable") 0 = []
    ∧ semantic_search (.error "embedding failure") true
        (.ok [{ id := "doc1", score := 1, metadata := [("text", "ctx")] }]) 0
      = semantic_search (.ok [1]) true (.ok []) 0 :=
  ⟨rfl, rfl, rfl⟩

/-- C4 (corrected): search failures are swallowed, not surfaced.  When the
embedding computation fails, SemanticSearch.search catches the exception and
returns an empty list; when the index query fails, PineconeClient.search
catches it and returns an empty list, so search again returns an empty,
success-shaped result.  Neither failure is distinguishable from an empty
result set at the call site. -/
theorem search_failure_returns_empty (e : String) (connected : Bool)
    (embedOutcome : Except String (List ℚ))
    (queryOutcome : Except String (List SearchMatch)) (min_score : ℚ) :
    semantic_search (.error e) connected queryOutcome min_score = []
    ∧ semantic_search embedOutcome connected (.error e) min_score = [] := by
  constructor
  · rfl
  · cases embedOutcome with
    | error _ => rfl
    | ok v => cases connected <;> rfl

/-- C9: minScore filtering preserves the index ranking.  The enhanced results
of SemanticSearch.search are, in order, exactly the raw matches whose score
is at least min_score (a sublist of the index's native ranking: filtering
only removes, never reorders); every returned result passes the threshold
and carries relevance_percentage = round(score * 100, 2); and every raw
match passing the threshold appears, enhanced, in the output. -/
theorem search_minscore_filter (v : List ℚ) (results : List SearchMatch)
    (min_score : ℚ) (r : EnhancedResult) (m : SearchMatch)
    (hr : r ∈ semantic_search (.ok v) true (.ok results) min_score)
    (hm : m ∈ results) (hscore : min_score ≤ m.score) :
    List.Sublist
      ((semantic_search (.ok v) true (.ok results) min_score).map searchMatchOf)
      results
    ∧ min_score ≤ r.score
    ∧ r.relevance_percentage = pyRoundTo2 (r.score * 100)
    ∧ enhanceResult m ∈ semantic_search (.ok v) true (.ok results) min_score := by
  have hsem : semantic_search (.ok v) true (.ok results) min_score
      = (results.filter (fun x => min_score ≤ x.score)).map enhanceResult := rfl
  refine ⟨?_, ?_, ?_, ?_⟩
  · rw [hsem, List.map_map]
    have hcomp : (searchMatchOf ∘ enhanceResult) = id := by
      funext x
      rfl
    rw [hcomp, List.map_id]
    exact List.filter_sublist results
  · rw [hsem] at hr
    rcases List.mem_map.mp hr with ⟨m2, hm2, rfl⟩
    have hdec : decide (min_score ≤ m2.score) = true := (List.mem_filter.mp hm2).2
    exact of_decide_eq_true hdec
  · rw [hsem] at hr
    rcases List.mem_map.mp hr with ⟨m2, hm2, rfl⟩
    rfl
  · rw [hsem]
    exact List.mem_map_of_mem enhanceResult
      (List.mem_filter.mpr ⟨hm, decide_eq_true hscore⟩)

/-- A concrete raw search match used at witness inputs. -/
def matchDoc : SearchMatch :=
  { id := "doc1", score := 1, metadata := [("text", "ctx")] }

/-- Witness for C9's theorem at concrete inputs. -/
theorem search_minscore_filter_witness :
    List.Sublist
      ((semantic_search (.ok [1]) true (.ok [matchDoc]) 0).map searchMatchOf)
      [matchDoc]
    ∧ (0 : ℚ) ≤ (enhanceResult matchDoc).score
    ∧ (enhanceResult matchDoc).relevance_percentage
      = pyRoundTo2 ((enhanceResult matchDoc).score * 100)
    ∧ enhanceResult matchDoc ∈ semantic_search (.ok [1]) true (.ok [matchDoc]) 0 :=
  search_minscore_filter [1] [matchDoc] 0 (enhanceResult matchDoc) matchDoc
    (by
      simp only [semantic_search, pinecone_client_search]
      simp
      exact ⟨matchDoc, ⟨rfl, by decide⟩, rfl⟩)
    (by simp) (by decide)

/-- C6 counterexample: a batch with a wrongly-dimensioned vector does not
surface a DimensionMismatch error naming the offending id — upsert_vectors
catches the index's rejection and returns the bare boolean False, so two
batches whose offending ids differ produce identical caller-visible
results. -/
theorem upsert_vectors_dim_cex :
    upsert_vectors true "t0" [{ id := "v1", values := [1, 2], metadata := [] }]
        { dimension := 384, records := [] }
      = (false, { dimension := 384, records := [] })
    ∧ upsert_vectors true "t0" [{ id := "v2", values := [1, 2, 3], metadata := [] }]
        { dimension := 384, records := [] }
      = (false, { dimension := 384, records := [] })
    ∧ upsert_vectors true "t0" [{ id := "v1", values := [1, 2], metadata := [] }]
        { dimension := 384, records := [] }
      = upsert_vectors true "t0" [{ id := "v2", values := [1, 2, 3], metadata := [] }]
        { dimension := 384, records := [] } := by
  refine ⟨by decide, by decide, by decide⟩

/-- C6 (corrected): dimension invariant with batch atomicity, but with the
failure reported only as a boolean.  If any vector in the batch has a values
length different from the index dimension, the (spec-modelled) hosted index
rejects the whole batch, upsert_vectors catches the rejection and returns
False, no vector of the batch is applied, and the index state is unchanged;
the offending id is only logged, not returned to the caller. -/
theorem upsert_vectors_dim_mismatch (now : String) (vectors : List UpVector)
    (st : IndexState) (w : UpVector) (hw : w ∈ vectors)
    (hdim : w.values.length ≠ st.dimension) :
    upsert_vectors true now vectors st = (false, st) := by
  unfold upsert_vectors
  simp only [Bool.not_true, Bool.false_eq_true, if_neg, if_false]
  have hbad : (vectors.map (stampTimestamp now)).find?
      (fun v => v.values.length ≠ st.dimension) ≠ none := by
    intro hnone
    have hall := List.find?_eq_none.mp hnone (stampTimestamp now w)
      (List.mem_map_of_mem _ hw)
    have hlen : (stampTimestamp now w).values.length = w.values.length := by
      unfold stampTimestamp
      by_cases h : ((w.metadata.find? (fun p => p.1 = "timestamp")).isSome : Bool) <;>
        simp [h]
    simp only [hlen, decide_eq_true_eq] at hall
    exact hall hdim
  unfold indexUpsert
  cases hfind : (vectors.map (stampTimestamp now)).find?
      (fun v => v.values.length ≠ st.dimension) with
  | none => exact absurd hfind hbad
  | some bad => rfl

/-- Witness for C6's amended theorem at concrete inputs. -/
theorem upsert_vectors_dim_mismatch_witness :
    upsert_vectors true "t0" [{ id := "v1", values := [1, 2], metadata := [] }]
        { dimension := 384, records := [] }
      = (false, { dimension := 384, records := [] }) :=
  upsert_vectors_dim_mismatch "t0"
    [{ id := "v1", values := [1, 2], metadata := [] }]
    { dimension := 384, records := [] }
    { id := "v1", values := [1, 2], metadata := [] }
    (by simp) (by decide)

end PedaRAGy
